import Mathlib

/-!
Shallow embedding of the `cachify` LRU cache (`src/lru.go`, `src/types.go`).

Modelling conventions:

* `time.Time` and `time.Duration` are modelled as integers
  (nanoseconds); the Go zero `time.Time{}` is the integer `0`, `t1.After t2`
  is `t1 > t2`, `t.Add d` is `t + d`, `time.Until t` at instant `now` is
  `t - now`.  Every operation that reads the wall clock (`time.Now()`)
  takes the instant `now` as an explicit argument.
* The Go `LRU` owns a map `cache : map[string]*list.Element` and a doubly
  linked `list` whose front is the most-recently-used entry.  Every
  mutation of the source updates the two in lockstep, so that they always
  index exactly the same entries; the model therefore keeps a single field
  `order : List (entries V)`, the linked list from front (head) to back
  (tail), and the map is its key set.  `len(c.cache)` is `order.length`
  (the key lists that arise from the constructor are duplicate-free).
* `container/list` operations on an element handle become list surgery on
  the entry's key: `list.Remove(element)` / `delete(cache, key)` is
  `List.eraseP` of the first entry with that key, and `MoveToFront` is
  erase-then-cons.  With duplicate-free keys this is exactly the pointer
  based removal of the source.
* The eviction callback `onEvict` is modelled by a trace: each operation
  returns, besides its result and the new state, the list of
  `(key, value)` pairs with which `onEvict` is invoked (in invocation
  order) whenever a callback is installed.  The pair recorded by `evict`
  is read off the entry *before* it is removed, as in the source.
* The `sync.RWMutex` cannot act in a sequential model, but the mode in
  which each operation acquires it is part of the code; the `LockMode`
  constants below record, per operation, whether the source calls
  `RLock` (shared) or `Lock` (exclusive).
-/

namespace Cachify

/-- Go struct `entries` (src/types.go): one cache entry. -/
structure entries (V : Type) where
  key : String
  value : V
  expiration : Int
deriving Repr, DecidableEq

/-- Go struct `LRU` (src/types.go), restricted to the fields the sequential
semantics can observe: the capacity bound, the combined map+list state
(see the module comment), and the default expiration duration.
`onEvict` is modelled by the eviction traces, `mutex` by the `LockMode`
constants, and `stopCleanup` only signals the background task. -/
structure LRU (V : Type) where
  capacity : Int
  order : List (entries V)
  expiration : Int
deriving Repr, DecidableEq

variable {V : Type}

/-- `NewLRU` (src/lru.go): empty cache with the given capacity and no
default expiration. -/
def NewLRU (V : Type) (capacity : Int) : LRU V :=
  { capacity := capacity, order := [], expiration := 0 }

/-- The key-match predicate used for all map lookups `c.cache[key]`. -/
def keyIs (key : String) : entries V → Bool := fun e => e.key == key

/-- `evict` (src/lru.go): invoke the callback with the entry's key and
value (recorded in the trace) and then remove the entry from map and
list.  The pair is read from the entry before removal. -/
def evict (c : LRU V) (e : entries V) : LRU V × List (String × V) :=
  ({ c with order := c.order.eraseP (keyIs e.key) }, [(e.key, e.value)])

/-- `calculateExpiry` (src/lru.go): `now + expiration` when a default
expiration is configured, else the zero time. -/
def calculateExpiry (c : LRU V) (now : Int) : Int :=
  if c.expiration > 0 then now + c.expiration else 0

/-- `list.MoveToFront(element)` for the element holding entry `e`:
detach it and re-attach at the head. -/
def moveToFront (c : LRU V) (e : entries V) : LRU V :=
  { c with order := e :: c.order.eraseP (keyIs e.key) }

/-- `Get` (src/lru.go): look the key up; if present and
`expiration > 0 && time.Now().After(entry.expiration)` evict it and
report not-found; otherwise move it to the front and return its value.
Returns (result, new state, eviction trace). -/
def Get (c : LRU V) (now : Int) (key : String) :
    Option V × LRU V × List (String × V) :=
  match c.order.find? (keyIs key) with
  | none => (none, c, [])
  | some e =>
    if c.expiration > 0 ∧ now > e.expiration then
      let r := evict c e
      (none, r.1, r.2)
    else
      (some e.value, moveToFront c e, [])

/-- `Set` (src/lru.go): overwrite-and-promote when the key exists;
otherwise push a fresh entry to the front and, if the size now exceeds
the capacity, evict the back element (when one exists). -/
def Set (c : LRU V) (now : Int) (key : String) (value : V) :
    LRU V × List (String × V) :=
  match c.order.find? (keyIs key) with
  | some e =>
    ({ c with order :=
        { e with value := value, expiration := calculateExpiry c now }
          :: c.order.eraseP (keyIs key) }, [])
  | none =>
    let entry : entries V :=
      { key := key, value := value, expiration := calculateExpiry c now }
    let c1 : LRU V := { c with order := entry :: c.order }
    if (c1.order.length : Int) > c1.capacity then
      match c1.order.getLast? with
      | some oldest => evict c1 oldest
      | none => (c1, [])
    else
      (c1, [])

/-- `Remove` (src/lru.go): evict the key's entry when present. -/
def Remove (c : LRU V) (key : String) : LRU V × List (String × V) :=
  match c.order.find? (keyIs key) with
  | some e => evict c e
  | none => (c, [])

/-- `Clear` (src/lru.go): reset map and list; `evict` is never called,
so the trace is empty. -/
def Clear (c : LRU V) : LRU V × List (String × V) :=
  ({ c with order := [] }, [])

/-- `Len` (src/lru.go): `len(c.cache)`. -/
def Len (c : LRU V) : Int :=
  (c.order.length : Int)

/-- `IsMostRecentlyUsed` (src/lru.go): the front entry's key equals the
argument; false on an empty cache. -/
def IsMostRecentlyUsed (c : LRU V) (key : String) : Bool :=
  match c.order.head? with
  | some e => e.key == key
  | none => false

/-- The eviction loop of `SetCapacity` (src/lru.go): while
`len(c.cache) > c.capacity`, evict the back element.  When the list is
empty yet the size still exceeds the capacity (only possible for a
negative capacity) the Go loop spins forever doing nothing; the model
returns the state unchanged in that unreachable-for-the-claims case. -/
def SetCapacityLoop (c : LRU V) : LRU V × List (String × V) :=
  if h : (c.order.length : Int) > c.capacity then
    match hb : c.order.getLast? with
    | some oldest =>
      have hlt : ((evict c oldest).1).order.length < c.order.length := by
        have hmem : oldest ∈ c.order := List.mem_of_getLast?_eq_some hb
        have hkey : keyIs oldest.key oldest = true := by simp [keyIs]
        have hlen := List.length_eraseP_of_mem hmem hkey
        have hpos : 0 < c.order.length := List.length_pos.mpr fun hnil => by
          rw [hnil] at hb; simp at hb
        simp only [evict]
        omega
      let r := evict c oldest
      let r2 := SetCapacityLoop r.1
      (r2.1, r.2 ++ r2.2)
    | none => (c, [])
  else
    (c, [])
termination_by c.order.length
decreasing_by exact hlt

/-- `SetCapacity` (src/lru.go): store the new capacity, then evict
back elements while the size exceeds it. -/
def SetCapacity (c : LRU V) (capacity : Int) : LRU V × List (String × V) :=
  SetCapacityLoop { c with capacity := capacity }

/-- `PersistExpiry` (src/lru.go): when the key is present and a default
expiration is configured, return `time.Until(entry.expiration)` and
true; otherwise `(0, false)`. -/
def PersistExpiry (c : LRU V) (now : Int) (key : String) :
    Int × Bool :=
  match c.order.find? (keyIs key) with
  | some e =>
    if c.expiration > 0 then (e.expiration - now, true) else (0, false)
  | none => (0, false)

/-- `ExpandExpiry` (src/lru.go): when the key is present, add the
duration to its expiration timestamp and move it to the front; no-op
otherwise. -/
def ExpandExpiry (c : LRU V) (key : String) (expiry : Int) : LRU V :=
  match c.order.find? (keyIs key) with
  | some e =>
    { c with order :=
        { e with expiration := e.expiration + expiry }
          :: c.order.eraseP (keyIs key) }
  | none => c

/-- `cleanupExpired` (src/lru.go): range over the entries and evict each
one satisfying `entry.expiration.After(now)` — note the source tests
`expiration > now` (the comment in the source says "Entry has expired"
but the comparison keeps entries with `expiration ≤ now`).  Membership
after the pass does not depend on Go's unspecified map-iteration order;
the trace is modelled in list (recency) order. -/
def cleanupExpired (c : LRU V) (now : Int) : LRU V × List (String × V) :=
  ({ c with order := c.order.filter fun e => !(e.expiration > now : Bool) },
   (c.order.filter fun e => (e.expiration > now : Bool)).map
     fun e => (e.key, e.value))

/-- Mode in which an operation acquires the `sync.RWMutex`. -/
inductive LockMode
  | shared
  | exclusive
deriving DecidableEq, Repr

/-- `Get` acquires the guard with `c.mutex.RLock()` (src/lru.go). -/
def Get_lockMode : LockMode := LockMode.shared

/-- `Set` acquires the guard with `c.mutex.Lock()` (src/lru.go). -/
def Set_lockMode : LockMode := LockMode.exclusive

/-- `ExpandExpiry` acquires the guard with `c.mutex.Lock()` (src/lru.go). -/
def ExpandExpiry_lockMode : LockMode := LockMode.exclusive

/-- `SetCapacity` acquires the guard with `c.mutex.Lock()` (src/lru.go). -/
def SetCapacity_lockMode : LockMode := LockMode.exclusive

/-- `cleanupExpired` acquires the guard with `c.mutex.Lock()` (src/lru.go). -/
def cleanupExpired_lockMode : LockMode := LockMode.exclusive

/-- A sequence of `Set` calls, each tagged with the instant at which it
runs; returns the final cache state. -/
def SetSeq (c : LRU V) (ops : List (Int × String × V)) : LRU V :=
  ops.foldl (fun a op => (Set a op.1 op.2.1 op.2.2).1) c

/-- Sample state for the sweeper: entry `stale` expired at time 5, entry
`fresh` expires at time 100; default expiration 4 is configured. -/
def cleanupSample : LRU Int :=
  { capacity := 2,
    order := [⟨"fresh", 1, 100⟩, ⟨"stale", 2, 5⟩],
    expiration := 4 }

/-- Sample state for the locking claim: two never-expiring entries, `b`
least recently used. -/
def lockSample : LRU Int :=
  { capacity := 2, order := [⟨"a", 1, 0⟩, ⟨"b", 2, 0⟩], expiration := 0 }

/-- Sample state for the capacity-shrink claim: three entries, `c` most
recently used, `a` least recently used. -/
def shrinkSample : LRU Int :=
  { capacity := 3,
    order := [⟨"c", 3, 0⟩, ⟨"b", 2, 0⟩, ⟨"a", 1, 0⟩],
    expiration := 0 }

/-- Sample state used by the witnesses: a default expiration of 6 is
configured; entry `y` is already past its expiration 5 at time 10,
entry `x` expires at 20. -/
def wSample : LRU Int :=
  { capacity := 3,
    order := [⟨"x", 7, 20⟩, ⟨"y", 8, 5⟩],
    expiration := 6 }

end Cachify

namespace Cachify

variable {V : Type}

theorem keyIs_self (e : entries V) : keyIs e.key e = true := by
  simp [keyIs]

theorem key_eq_of_found {l : List (entries V)} {k : String} {e : entries V}
    (h : l.find? (keyIs k) = some e) : e.key = k := by
  have h2 := List.find?_some h
  simpa [keyIs] using h2

theorem mem_of_found {l : List (entries V)} {k : String} {e : entries V}
    (h : l.find? (keyIs k) = some e) : e ∈ l :=
  List.mem_of_find?_eq_some h

theorem cons_eraseP_perm {α : Type} {p : α → Bool} :
    ∀ {l : List α} {e : α}, l.find? p = some e → (e :: l.eraseP p).Perm l
  | x :: xs, e, h => by
    by_cases hp : p x
    · rw [List.find?_cons_of_pos _ hp] at h
      cases h
      rw [List.eraseP_cons_of_pos hp]
    · rw [List.find?_cons_of_neg _ hp] at h
      have ih := cons_eraseP_perm h
      rw [List.eraseP_cons_of_neg hp]
      exact (List.Perm.swap x e _).trans (ih.cons x)

theorem length_eraseP_of_found {l : List (entries V)} {k : String}
    {e : entries V} (h : l.find? (keyIs k) = some e) :
    (l.eraseP (keyIs k)).length + 1 = l.length := by
  have hperm := cons_eraseP_perm h
  have := hperm.length_eq
  simpa using this

theorem find?_none_key_ne {l : List (entries V)} {k : String}
    (h : l.find? (keyIs k) = none) : ∀ e ∈ l, e.key ≠ k := by
  intro e he
  have h2 := List.find?_eq_none.1 h e he
  simpa [keyIs] using h2

theorem Set_found_eq (c : LRU Int) (now : Int) (k : String) (v : Int)
    (e : entries Int) (hfind : c.order.find? (keyIs k) = some e) :
    Set c now k v =
      ({ c with order :=
          { e with value := v, expiration := calculateExpiry c now }
            :: c.order.eraseP (keyIs k) }, []) := by
  simp [Set, hfind]

theorem Set_new_spec (c : LRU Int) (now : Int) (k : String) (v : Int)
    (hfind : c.order.find? (keyIs k) = none) :
    (¬ ((c.order.length : Int) + 1 > c.capacity) →
        Set c now k v =
          ({ c with order := ⟨k, v, calculateExpiry c now⟩ :: c.order }, []))
    ∧ (((c.order.length : Int) + 1 > c.capacity) → c.order = [] →
        Set c now k v = ({ c with order := [] }, [(k, v)]))
    ∧ (((c.order.length : Int) + 1 > c.capacity) → ∀ oldest,
        c.order.getLast? = some oldest →
        Set c now k v =
          ({ c with order := ⟨k, v, calculateExpiry c now⟩
              :: c.order.eraseP (keyIs oldest.key) },
            [(oldest.key, oldest.value)])) := by
  refine ⟨fun hno => ?_, fun hov hnil => ?_, fun hov oldest hold => ?_⟩
  · simp only [Set, hfind, List.length_cons]
    split
    · rename_i hc
      exfalso
      omega
    · rfl
  · obtain ⟨cap, ord, exp⟩ := c
    simp only at hnil
    subst hnil
    simp only [Set, hfind, List.length_cons, List.length_nil]
    split
    · simp [evict, keyIs]
    · rename_i hc
      exfalso
      simp only [List.length_cons, List.length_nil] at hc hov
      omega
  · have hne : oldest.key ≠ k :=
      find?_none_key_ne hfind oldest (List.mem_of_getLast?_eq_some hold)
    have hcons : ((⟨k, v, calculateExpiry c now⟩ : entries Int)
        :: c.order).getLast? = some oldest := by
      rw [List.getLast?_cons, hold]
      rfl
    simp only [Set, hfind, List.length_cons]
    split
    · rename_i hc
      rw [hcons]
      simp only [evict]
      rw [List.eraseP_cons_of_neg (by simp [keyIs]; exact fun h2 => hne h2.symm)]
    · rename_i hc
      exfalso
      omega

/-- Claim C1 (code bug witness): at time 10 the sweeper pass keeps the
entry `stale`, whose expiration 5 has already passed, and evicts the
entry `fresh`, whose expiration 100 is still in the future, invoking the
notification for `fresh` — the source's comparison
`entry.expiration.After(now)` selects exactly the not-yet-expired
entries for eviction, the reverse of the claimed behaviour. -/
theorem cleanupExpired_keeps_expired_evicts_fresh :
    (cleanupExpired cleanupSample 10).1.order = [⟨"stale", 2, 5⟩]
    ∧ (cleanupExpired cleanupSample 10).2 = [("fresh", 1)] := by
  decide

/-- Claim C8 (code bug witness): `Get` acquires the reader-writer guard
in shared mode (`c.mutex.RLock()` in the source), yet a hit on key `b`
structurally mutates the Sequence by promoting `b` to the front;
mutating operations such as `Set` and `ExpandExpiry` take the guard in
exclusive mode. -/
theorem Get_shared_mode_but_mutates :
    Get_lockMode = LockMode.shared
    ∧ (Get lockSample 5 "b").2.1.order ≠ lockSample.order
    ∧ (Get lockSample 5 "b").2.1.order = [⟨"b", 2, 0⟩, ⟨"a", 1, 0⟩]
    ∧ Set_lockMode = LockMode.exclusive
    ∧ ExpandExpiry_lockMode = LockMode.exclusive := by
  decide

/-- Claim C3: `Get` on an absent key returns `(nil, false)` and changes
nothing; on a present key whose entry has expired (with a default
expiration configured) it evicts that entry, emits the notification with
its key and value, and reports not-found; otherwise it moves the entry
to the head, leaves the rest of the sequence unchanged, and returns its
stored value with found = true. -/
theorem Get_spec (c : LRU Int) (now : Int) (key : String) :
    (c.order.find? (keyIs key) = none → Get c now key = (none, c, []))
    ∧ (∀ e, c.order.find? (keyIs key) = some e →
        ((c.expiration > 0 ∧ now > e.expiration) →
          Get c now key =
            (none, { c with order := c.order.eraseP (keyIs key) },
              [(key, e.value)]))
        ∧ (¬ (c.expiration > 0 ∧ now > e.expiration) →
            Get c now key =
              (some e.value,
                { c with order := e :: c.order.eraseP (keyIs key) }, [])
            ∧ IsMostRecentlyUsed (Get c now key).2.1 key = true)) := by
  constructor
  · intro hnone
    simp [Get, hnone]
  · intro e hfind
    have hkey := key_eq_of_found hfind
    refine ⟨fun hcond => ?_, fun hcond => ⟨?_, ?_⟩⟩
    · simp [Get, hfind, hcond, evict, hkey]
    · simp [Get, hfind, hcond, moveToFront, hkey]
    · simp [Get, hfind, hcond, moveToFront, IsMostRecentlyUsed, hkey]

/-- Claim C3 witness: on the sample state, `Get` of the expired key `y`
at time 10 evicts it, fires the notification with `("y", 8)`, and
reports not-found. -/
theorem Get_spec_witness :
    Get wSample 10 "y" =
      (none, { wSample with order := [⟨"x", 7, 20⟩] }, [("y", 8)]) := by
  have h := ((Get_spec wSample 10 "y").2 ⟨"y", 8, 5⟩ (by decide)).1 (by decide)
  rw [h]
  decide

/-- Claim C6: `PersistExpiry` reports found exactly when the key is
present and a default expiration is configured, in which case it returns
the (possibly negative) delta between the entry's expiration and now;
otherwise it returns `(0, false)`. -/
theorem PersistExpiry_spec (c : LRU Int) (now : Int) (key : String) :
    ((PersistExpiry c now key).2 = true ↔
      (c.order.find? (keyIs key)).isSome ∧ c.expiration > 0)
    ∧ (∀ e, c.order.find? (keyIs key) = some e → c.expiration > 0 →
        PersistExpiry c now key = (e.expiration - now, true))
    ∧ (c.order.find? (keyIs key) = none →
        PersistExpiry c now key = (0, false))
    ∧ (¬ c.expiration > 0 → PersistExpiry c now key = (0, false)) := by
  refine ⟨?_, fun e hfind hpos => ?_, fun hnone => ?_, fun hneg => ?_⟩
  · cases hf : c.order.find? (keyIs key) with
    | none => simp [PersistExpiry, hf]
    | some e =>
      by_cases he : c.expiration > 0 <;> simp [PersistExpiry, hf, he]
  · simp [PersistExpiry, hfind, hpos]
  · simp [PersistExpiry, hnone]
  · cases hf : c.order.find? (keyIs key) <;>
      simp [PersistExpiry, hf, hneg]

/-- Claim C6 witness: the logically expired but unswept key `y` at time
10 yields the negative remaining duration `-5` with found = true. -/
theorem PersistExpiry_spec_witness :
    PersistExpiry wSample 10 "y" = (-5, true) := by
  have h := (PersistExpiry_spec wSample 10 "y").2.1 ⟨"y", 8, 5⟩
    (by decide) (by decide)
  rw [h]
  decide

/-- Claim C9: `Set` of an already-present key overwrites the value,
recomputes the expiration, and moves the entry to the head; it emits no
eviction, keeps the length and the key multiset unchanged, and leaves
the capacity untouched — the overflow check runs only for new keys. -/
theorem Set_existing_key_frame (c : LRU Int) (now : Int) (k : String)
    (v : Int) (e : entries Int)
    (hfind : c.order.find? (keyIs k) = some e) :
    (Set c now k v).2 = []
    ∧ (Set c now k v).1.order =
        { e with value := v, expiration := calculateExpiry c now }
          :: c.order.eraseP (keyIs k)
    ∧ (Set c now k v).1.order.length = c.order.length
    ∧ ((Set c now k v).1.order.map entries.key).Perm
        (c.order.map entries.key)
    ∧ (Set c now k v).1.capacity = c.capacity
    ∧ IsMostRecentlyUsed (Set c now k v).1 k = true := by
  have hkey := key_eq_of_found hfind
  refine ⟨by simp [Set, hfind], by simp [Set, hfind], ?_, ?_,
    by simp [Set, hfind], ?_⟩
  · have hlen := length_eraseP_of_found hfind
    simp [Set, hfind]
    omega
  · have hp := (cons_eraseP_perm hfind).map entries.key
    simpa [Set, hfind] using hp
  · simp [Set, hfind, IsMostRecentlyUsed, hkey]

/-- Claim C9 witness: overwriting the present key `y` at time 10 keeps
both entries, fires no notification, and promotes `y`. -/
theorem Set_existing_key_frame_witness :
    (Set wSample 10 "y" 9).1.order = [⟨"y", 9, 16⟩, ⟨"x", 7, 20⟩]
    ∧ (Set wSample 10 "y" 9).2 = [] := by
  have h := Set_existing_key_frame wSample 10 "y" 9 ⟨"y", 8, 5⟩ (by decide)
  refine ⟨?_, h.1⟩
  rw [h.2.1]
  decide

/-- Claim C10: `ExpandExpiry` of a present key adds the duration to the
entry's stored expiration timestamp — including when that timestamp is
the sentinel zero, in which case the result is just the duration — and
moves the entry to the head; on an absent key it changes nothing. -/
theorem ExpandExpiry_spec (c : LRU Int) (k : String) (d : Int) :
    (c.order.find? (keyIs k) = none → ExpandExpiry c k d = c)
    ∧ (∀ e, c.order.find? (keyIs k) = some e →
        ExpandExpiry c k d =
          { c with order :=
              { e with expiration := e.expiration + d }
                :: c.order.eraseP (keyIs k) }
        ∧ IsMostRecentlyUsed (ExpandExpiry c k d) k = true
        ∧ (e.expiration = 0 →
            (ExpandExpiry c k d).order.head? =
              some { e with expiration := d })) := by
  constructor
  · intro hnone
    simp [ExpandExpiry, hnone]
  · intro e hfind
    have hkey := key_eq_of_found hfind
    refine ⟨by simp [ExpandExpiry, hfind], ?_, fun hzero => ?_⟩
    · simp [ExpandExpiry, hfind, IsMostRecentlyUsed, hkey]
    · simp [ExpandExpiry, hfind, hzero]

theorem length_filter_partition {α : Type} (p : α → Bool) (l : List α) :
    (l.filter p).length + (l.filter fun a => !(p a)).length = l.length := by
  induction l with
  | nil => rfl
  | cons x xs ih =>
    by_cases hp : p x <;> simp [hp] <;> omega

/-- Claim C4: every eviction funnels through `evict`, which records
exactly one notification carrying the evicted entry's key and value as
read before the removal, and then removes exactly that entry from the
structures; `Remove` of a present key emits exactly that notification;
a sweeper pass emits exactly one notification per removed entry; and
`Clear` empties the cache while emitting none. -/
theorem eviction_notification_spec (c : LRU Int) (now : Int) (key : String)
    (e : entries Int) (hfind : c.order.find? (keyIs key) = some e) :
    (evict c e).2 = [(e.key, e.value)]
    ∧ (evict c e).1.order = c.order.eraseP (keyIs e.key)
    ∧ Remove c key = ((evict c e).1, [(key, e.value)])
    ∧ (Remove c key).1.order.length + 1 = c.order.length
    ∧ Clear c = ({ c with order := [] }, [])
    ∧ (cleanupExpired c now).2.length
        + (cleanupExpired c now).1.order.length = c.order.length := by
  have hkey := key_eq_of_found hfind
  refine ⟨rfl, rfl, ?_, ?_, rfl, ?_⟩
  · simp [Remove, hfind, evict, hkey]
  · have hlen := length_eraseP_of_found hfind
    simp only [Remove, hfind, evict, hkey]
    exact hlen
  · have hpart := length_filter_partition
      (fun e : entries Int => (decide (e.expiration > now))) c.order
    simpa [cleanupExpired] using hpart

/-- Claim C4 witness: removing the present key `y` emits exactly the
notification `("y", 8)` and drops exactly that entry. -/
theorem eviction_notification_spec_witness :
    Remove wSample "y" =
      ({ wSample with order := [⟨"x", 7, 20⟩] }, [("y", 8)]) := by
  have h := eviction_notification_spec wSample 10 "y" ⟨"y", 8, 5⟩ (by decide)
  rw [h.2.2.1]
  decide

theorem Set_capacity_eq (c : LRU Int) (now : Int) (k : String) (v : Int) :
    (Set c now k v).1.capacity = c.capacity := by
  cases hfind : c.order.find? (keyIs k) with
  | some e => rw [Set_found_eq c now k v e hfind]
  | none =>
    have hspec := Set_new_spec c now k v hfind
    by_cases hover : ((c.order.length : Int) + 1 > c.capacity)
    · cases hco : c.order with
      | nil => rw [hspec.2.1 hover hco]
      | cons x xs =>
        obtain ⟨oldest, holdest⟩ : ∃ o, c.order.getLast? = some o := by
          rw [hco]
          exact ⟨_, List.getLast?_eq_getLast _ (by simp)⟩
        rw [hspec.2.2 hover oldest holdest]
    · rw [hspec.1 hover]

theorem Set_len_le (c : LRU Int) (now : Int) (k : String) (v : Int)
    (hle : (c.order.length : Int) ≤ c.capacity) :
    ((Set c now k v).1.order.length : Int) ≤ c.capacity := by
  cases hfind : c.order.find? (keyIs k) with
  | some e =>
    have hlen := length_eraseP_of_found hfind
    rw [Set_found_eq c now k v e hfind]
    simp only [List.length_cons]
    omega
  | none =>
    have hspec := Set_new_spec c now k v hfind
    by_cases hover : ((c.order.length : Int) + 1 > c.capacity)
    · cases hco : c.order with
      | nil =>
        rw [hspec.2.1 hover hco]
        rw [hco] at hle
        simpa using hle
      | cons x xs =>
        obtain ⟨oldest, holdest⟩ : ∃ o, c.order.getLast? = some o := by
          rw [hco]
          exact ⟨_, List.getLast?_eq_getLast _ (by simp)⟩
        have homem : oldest ∈ c.order := List.mem_of_getLast?_eq_some holdest
        have hlen := List.length_eraseP_of_mem homem (keyIs_self oldest)
        have hpos : 0 < c.order.length := List.length_pos.mpr (by
          rw [hco]; exact List.cons_ne_nil x xs)
        rw [hspec.2.2 hover oldest holdest]
        simp only [List.length_cons]
        omega
    · rw [hspec.1 hover]
      simp only [List.length_cons]
      omega

theorem SetSeq_len_le (cap : Int) (ops : List (Int × String × Int)) :
    ∀ c : LRU Int, c.capacity = cap → (c.order.length : Int) ≤ cap →
      ((SetSeq c ops).order.length : Int) ≤ cap
      ∧ (SetSeq c ops).capacity = cap := by
  induction ops with
  | nil => exact fun c hc hle => ⟨hle, hc⟩
  | cons op rest ih =>
    intro c hc hle
    have hstep : SetSeq c (op :: rest)
        = SetSeq (Set c op.1 op.2.1 op.2.2).1 rest := rfl
    rw [hstep]
    refine ih _ ?_ ?_
    · rw [Set_capacity_eq]
      exact hc
    · have h2 := Set_len_le c op.1 op.2.1 op.2.2 (by rw [hc]; exact hle)
      rwa [hc] at h2

/-- Claim C2: starting from a cache constructed with a non-negative
capacity, after every prefix of any sequence of `Set` calls the length
is at most the capacity; and a `Set` of a new key emits at most one
eviction notification — exactly one precisely when the insertion makes
the size exceed the capacity — and the evicted entry is the tail
(the least recently used entry; the freshly inserted entry itself when
the cache was empty). -/
theorem Set_capacity_invariant (cap : Int) (hcap : 0 ≤ cap)
    (pre : List (Int × String × Int))
    (c : LRU Int) (now : Int) (k : String) (v : Int)
    (hnew : c.order.find? (keyIs k) = none) :
    Len (SetSeq (NewLRU Int cap) pre) ≤ cap
    ∧ (Set c now k v).2.length ≤ 1
    ∧ (((c.order.length : Int) + 1 > c.capacity)
        ↔ (Set c now k v).2.length = 1)
    ∧ (c.order = [] → ((c.order.length : Int) + 1 > c.capacity) →
        (Set c now k v).2 = [(k, v)])
    ∧ (∀ e, c.order.getLast? = some e →
        ((c.order.length : Int) + 1 > c.capacity) →
        (Set c now k v).2 = [(e.key, e.value)]) := by
  have hA : Len (SetSeq (NewLRU Int cap) pre) ≤ cap :=
    (SetSeq_len_le cap pre (NewLRU Int cap) rfl (by simpa [NewLRU] using hcap)).1
  have hspec := Set_new_spec c now k v hnew
  by_cases hover : ((c.order.length : Int) + 1 > c.capacity)
  · cases hco : c.order with
    | nil =>
      have heq := hspec.2.1 hover hco
      rw [heq]
      refine ⟨hA, by simp,
        ⟨fun _ => rfl, fun _ => by
          have h2 := hover
          rw [hco] at h2
          exact h2⟩,
        fun _ _ => rfl, fun e he _ => ?_⟩
      simp at he
    | cons x xs =>
      obtain ⟨oldest, holdest⟩ : ∃ o, c.order.getLast? = some o := by
        rw [hco]
        exact ⟨_, List.getLast?_eq_getLast _ (by simp)⟩
      have heq := hspec.2.2 hover oldest holdest
      rw [heq]
      refine ⟨hA, by simp,
        ⟨fun _ => rfl, fun _ => by
          have h2 := hover
          rw [hco] at h2
          exact h2⟩,
        fun hnil _ => absurd hnil (List.cons_ne_nil x xs), fun e he _ => ?_⟩
      have hold2 := holdest
      rw [hco] at hold2
      rw [hold2] at he
      cases he
      rfl
  · have heq := hspec.1 hover
    rw [heq]
    exact ⟨hA, by simp, by simp [hover], fun _ h2 => absurd h2 hover,
      fun e _ h2 => absurd h2 hover⟩

/-- Claim C2 witness: two inserts into a fresh capacity-1 cache keep the
length at 1, and a `Set` of the new key `z` on the sample cache
(3 entries would fit the capacity 3, so the insert overflows nothing)
emits at most one notification. -/
theorem Set_capacity_invariant_witness :
    Len (SetSeq (NewLRU Int 1) [(0, "a", 5), (0, "b", 6)]) ≤ 1
    ∧ (Set wSample 0 "z" 4).2.length ≤ 1 := by
  have h := Set_capacity_invariant 1 (by decide) [(0, "a", 5), (0, "b", 6)]
    wSample 0 "z" 4 (by decide)
  exact ⟨h.1, h.2.1⟩

theorem keys_nodup_dropLast {l : List (entries V)}
    (h : (l.map entries.key).Nodup) : (l.dropLast.map entries.key).Nodup :=
  h.sublist ((List.dropLast_sublist l).map entries.key)

theorem eraseP_getLast_of_nodupKeys {l : List (entries V)} {e : entries V}
    (hnd : (l.map entries.key).Nodup) (hb : l.getLast? = some e) :
    l.eraseP (keyIs e.key) = l.dropLast := by
  obtain ⟨ys, rfl⟩ := List.getLast?_eq_some_iff.1 hb
  have hnotin : ∀ b ∈ ys, ¬ (keyIs e.key b = true) := by
    intro b hbmem hkeq
    have hbk : b.key = e.key := by simpa [keyIs] using hkeq
    have hmem : e.key ∈ ys.map entries.key :=
      hbk ▸ List.mem_map_of_mem entries.key hbmem
    rw [List.map_append] at hnd
    have hdisj := (List.nodup_append.1 hnd).2.2
    exact hdisj hmem (by simp)
  rw [List.eraseP_append_right _ hnotin]
  simp [keyIs]

theorem SetCapacityLoop_spec (n : Nat) : ∀ c : LRU V, c.order.length = n →
    0 ≤ c.capacity → (c.order.map entries.key).Nodup →
    SetCapacityLoop c =
      ({ c with order := c.order.take c.capacity.toNat },
        ((c.order.drop c.capacity.toNat).reverse).map
          fun e => (e.key, e.value)) := by
  induction n using Nat.strong_induction_on with
  | _ n ih =>
    intro c hn hcap hnd
    rw [SetCapacityLoop]
    by_cases hover : ((c.order.length : Int) > c.capacity)
    · have hne : c.order ≠ [] := by
        intro hnil
        rw [hnil] at hover
        simp at hover
        omega
      obtain ⟨ys, e, hco⟩ : ∃ ys e, c.order = ys ++ [e] := by
        obtain ⟨e, he⟩ : ∃ e, c.order.getLast? = some e :=
          ⟨c.order.getLast hne, List.getLast?_eq_getLast _ hne⟩
        obtain ⟨ys, hys⟩ := List.getLast?_eq_some_iff.1 he
        exact ⟨ys, e, hys⟩
      have hlast : c.order.getLast? = some e := by
        rw [hco]
        exact List.getLast?_concat ys
      have hdrop : c.order.dropLast = ys := by
        rw [hco]
        simp
      have herase : c.order.eraseP (keyIs e.key) = ys := by
        rw [eraseP_getLast_of_nodupKeys hnd hlast, hdrop]
      have hlt : ys.length < n := by
        have : c.order.length = ys.length + 1 := by
          rw [hco]; simp
        omega
      have hih := ih ys.length hlt
        { c with order := ys } (by simp) hcap
        (by
          have h2 := hnd
          rw [hco, List.map_append] at h2
          exact (List.nodup_append.1 h2).1)
      have hm : c.capacity.toNat ≤ ys.length := by
        have h2 : c.order.length = ys.length + 1 := by
          rw [hco]; simp
        omega
      have htake : c.order.take c.capacity.toNat
          = ys.take c.capacity.toNat := by
        rw [hco, List.take_append_eq_append_take,
          Nat.sub_eq_zero_of_le hm]
        simp
      have hdropeq : (c.order.drop c.capacity.toNat).reverse
          = e :: (ys.drop c.capacity.toNat).reverse := by
        rw [hco, List.drop_append_eq_append_drop,
          Nat.sub_eq_zero_of_le hm]
        simp
      rw [dif_pos hover]
      split
      next oldest hb2 =>
        rw [hlast] at hb2
        injection hb2 with hb3
        subst hb3
        simp only [evict, herase]
        rw [hih, htake, hdropeq]
        simp
      next hb2 =>
        rw [hlast] at hb2
        cases hb2
    · have hle : c.order.length ≤ c.capacity.toNat := by omega
      simp only [dif_neg hover]
      rw [List.take_of_length_le hle, List.drop_eq_nil_of_le hle]
      simp

/-- Claim C5: `SetCapacity n` (n ≥ 0, duplicate-free keys) stores the
new bound and evicts from the tail, least-recently-used first, until the
size is at most n: the survivors are exactly the first n entries of the
recency sequence (most-recently-used side) and the notification trace
lists the dropped tail in LRU-first order; the final length is
min n (previous length). -/
theorem SetCapacity_spec (c : LRU Int) (n : Int) (hn : 0 ≤ n)
    (hnd : (c.order.map entries.key).Nodup) :
    SetCapacity c n =
      ({ capacity := n, order := c.order.take n.toNat,
         expiration := c.expiration },
        ((c.order.drop n.toNat).reverse).map fun e => (e.key, e.value))
    ∧ (SetCapacity c n).1.order.length = min n.toNat c.order.length
    ∧ (SetCapacity c n).2.length = c.order.length - n.toNat := by
  have h := SetCapacityLoop_spec ({ c with capacity := n } : LRU Int).order.length
    { c with capacity := n } rfl (by simpa using hn) (by simpa using hnd)
  have hmain : SetCapacity c n =
      ({ capacity := n, order := c.order.take n.toNat,
         expiration := c.expiration },
        ((c.order.drop n.toNat).reverse).map fun e => (e.key, e.value)) := by
    rw [SetCapacity, h]
  refine ⟨hmain, ?_, ?_⟩
  · rw [hmain]
    simp [Nat.min_comm]
  · rw [hmain]
    simp

/-- Claim C5 witness: a cache holding 3 entries (keys `c`, `b`, `a`
from most- to least-recently used) shrunk with `SetCapacity 1` ends with
exactly the most-recently-used entry `c`, and exactly two notifications
fire, in least-recently-used-first order: first `("a", 1)`, then
`("b", 2)`; with `SetCapacity 0` everything is evicted. -/
theorem SetCapacity_spec_witness :
    (SetCapacity shrinkSample 1).1.order = [⟨"c", 3, 0⟩]
    ∧ (SetCapacity shrinkSample 1).2 = [("a", 1), ("b", 2)]
    ∧ (SetCapacity shrinkSample 0).1.order = []
    ∧ (SetCapacity shrinkSample 0).2.length = 3 := by
  have h1 := (SetCapacity_spec shrinkSample 1 (by decide) (by decide)).1
  have h0 := (SetCapacity_spec shrinkSample 0 (by decide) (by decide)).1
  refine ⟨?_, ?_, ?_, ?_⟩
  · rw [h1]
    decide
  · rw [h1]
    decide
  · rw [h0]
    decide
  · rw [h0]
    decide

/-- Claim C7 counterexample: on an empty capacity-0 cache, `Set`
immediately evicts the freshly inserted entry (the overflow check fires
and the new entry is itself the tail), so the immediately following
`Get` returns not-found instead of `(v, true)`. -/
theorem set_get_roundtrip_cex :
    (Get (Set (NewLRU Int 0) 5 "a" 1).1 5 "a").1 = none
    ∧ (Set (NewLRU Int 0) 5 "a" 1).2 = [("a", 1)]
    ∧ Len (Set (NewLRU Int 0) 5 "a" 1).1 = 0 := by
  decide

/-- Claim C7 (amended): provided the cache's capacity is at least 1,
`Set k v` immediately followed by `Get k` (same instant, no intervening
operations) returns `(v, true)`, and `k` is the most-recently-used key
both after the `Set` and after the `Get`. -/
theorem set_get_roundtrip (c : LRU Int) (now : Int) (k : String) (v : Int)
    (hcap : 1 ≤ c.capacity) :
    (Get (Set c now k v).1 now k).1 = some v
    ∧ IsMostRecentlyUsed (Set c now k v).1 k = true
    ∧ IsMostRecentlyUsed (Get (Set c now k v).1 now k).2.1 k = true := by
  obtain ⟨rest, hord, hexp⟩ : ∃ rest,
      (Set c now k v).1.order = ⟨k, v, calculateExpiry c now⟩ :: rest
      ∧ (Set c now k v).1.expiration = c.expiration := by
    cases hfind : c.order.find? (keyIs k) with
    | some e =>
      have hkey := key_eq_of_found hfind
      rw [Set_found_eq c now k v e hfind]
      exact ⟨c.order.eraseP (keyIs k), by simp [hkey], rfl⟩
    | none =>
      have hspec := Set_new_spec c now k v hfind
      by_cases hover : ((c.order.length : Int) + 1 > c.capacity)
      · cases hco : c.order with
        | nil =>
          exfalso
          rw [hco] at hover
          simp only [List.length_nil] at hover
          omega
        | cons x xs =>
          obtain ⟨oldest, holdest⟩ : ∃ o, c.order.getLast? = some o := by
            rw [hco]
            exact ⟨_, List.getLast?_eq_getLast _ (by simp)⟩
          rw [hspec.2.2 hover oldest holdest]
          exact ⟨_, rfl, rfl⟩
      · rw [hspec.1 hover]
        exact ⟨c.order, rfl, rfl⟩
  have hfront : (Set c now k v).1.order.find? (keyIs k)
      = some ⟨k, v, calculateExpiry c now⟩ := by
    rw [hord]
    exact List.find?_cons_of_pos _ (by simp [keyIs])
  have hnotexp : ¬ ((Set c now k v).1.expiration > 0
      ∧ now > (⟨k, v, calculateExpiry c now⟩ : entries Int).expiration) := by
    rw [hexp]
    rintro ⟨hpos, hgt⟩
    have hgt2 : now > now + c.expiration := by
      simpa [calculateExpiry, hpos] using hgt
    omega
  refine ⟨?_, ?_, ?_⟩
  · simp [Get, hfront, hnotexp]
  · simp [IsMostRecentlyUsed, hord, keyIs]
  · simp [Get, hfront, hnotexp, moveToFront, IsMostRecentlyUsed]

/-- Claim C7 witness: on the sample cache (capacity 3), setting `z` to 4
at time 10 and immediately getting `z` returns `(4, true)`. -/
theorem set_get_roundtrip_witness :
    (Get (Set wSample 10 "z" 4).1 10 "z").1 = some 4 :=
  (set_get_roundtrip wSample 10 "z" 4 (by decide)).1

/-- Claim C10 witness: extending the key `y` (expiration 5) by 3 gives
expiration 8 and promotes `y`; the cache is otherwise unchanged. -/
theorem ExpandExpiry_spec_witness :
    ExpandExpiry wSample "y" 3 =
      { wSample with order := [⟨"y", 8, 8⟩, ⟨"x", 7, 20⟩] } := by
  have h := ((ExpandExpiry_spec wSample "y" 3).2 ⟨"y", 8, 5⟩ (by decide)).1
  rw [h]
  decide

end Cachify

